import Mathlib

/-!
# Verification of the mkey Snowflake-style identifier generator

A shallow embedding of `mkey.go`: a node-local generator of 64-bit
identifiers packing a millisecond timestamp, a node number and a
per-millisecond sequence counter, together with the multi-base
encode/decode family (custom base32, base58, URL-safe base64, decimal,
binary).

Conventions of the embedding:
* Byte strings are `List Nat` of byte values.
* The signed 64-bit `ID` type is `Int` for the encoding family (where the
  Go code compares and divides signed values), and identifiers produced by
  the generator are modelled as their unsigned 64-bit bit pattern
  (a `Nat` below `2^64`) where the code does bit packing and masking.
* Go's wrapping 64-bit arithmetic is made explicit with `% 2^64`
  (`wrap64` on `Int`) at the spots where the Go code can overflow.
* The system clock is modelled as a stream of millisecond samples
  (`List Nat`); the busy-wait loops of `Generate`/`GenerateBatch` consume
  samples from the stream, and a run that exhausts the stream inside a
  wait is `none` (the real code would still be spinning).
* Fallible operations return `Option` / `Except`.
-/

/-! ## Radix digit machinery -/

/-- Fuel-indexed helper for `natDigitsRev`; the fuel only forces
structural recursion, any fuel at least `x` gives the digits of `x`. -/
def natDigitsRevAux (b : Nat) : Nat → Nat → List Nat
  | _, 0 => []
  | x, fuel + 1 =>
    if b ≤ 1 ∨ x = 0 then [] else (x % b) :: natDigitsRevAux b (x / b) fuel

/-- The little-endian digits of `x` in radix `b`, as produced by the
`for f > 0 { b = append(b, f%radix); f /= radix }` loops of
`ID.Base32` / `ID.Base58`: least-significant digit first, empty for 0. -/
def natDigitsRev (b x : Nat) : List Nat := natDigitsRevAux b x x

theorem natDigitsRevAux_zero (b : Nat) : ∀ fuel, natDigitsRevAux b 0 fuel = [] := by
  intro fuel
  cases fuel with
  | zero => rfl
  | succ f => simp [natDigitsRevAux]

theorem natDigitsRevAux_fuel {b : Nat} :
    ∀ (f1 : Nat) {x f2 : Nat}, x ≤ f1 → x ≤ f2 →
      natDigitsRevAux b x f1 = natDigitsRevAux b x f2 := by
  intro f1
  induction f1 with
  | zero =>
    intro x f2 h1 _
    have hx : x = 0 := by omega
    subst hx
    rw [natDigitsRevAux_zero, natDigitsRevAux_zero]
  | succ g ih =>
    intro x f2 h1 h2
    by_cases hx : x = 0
    · subst hx
      rw [natDigitsRevAux_zero, natDigitsRevAux_zero]
    · cases f2 with
      | zero => omega
      | succ h =>
        simp only [natDigitsRevAux]
        by_cases hcond : b ≤ 1 ∨ x = 0
        · rw [if_pos hcond, if_pos hcond]
        · rw [if_neg hcond, if_neg hcond]
          have hdiv : x / b < x := Nat.div_lt_self (by omega) (by omega)
          exact congrArg (fun t => x % b :: t) (ih (by omega) (by omega))

theorem natDigitsRev_zero (b : Nat) : natDigitsRev b 0 = [] := rfl

theorem natDigitsRev_pos {b x : Nat} (hb : 2 ≤ b) (hx : x ≠ 0) :
    natDigitsRev b x = (x % b) :: natDigitsRev b (x / b) := by
  unfold natDigitsRev
  cases hx2 : x with
  | zero => exact absurd hx2 hx
  | succ m =>
    rw [← hx2]
    rw [natDigitsRevAux_fuel x (Nat.le_refl x) (le_of_eq hx2)]
    rw [hx2]
    show natDigitsRevAux b (m + 1) (m + 1) = _
    simp only [natDigitsRevAux]
    rw [if_neg (by omega)]
    rw [← hx2]
    have hdiv : x / b < x := Nat.div_lt_self (by omega) (by omega)
    rw [natDigitsRevAux_fuel m (by omega) (Nat.le_refl _)]

/-- Go's custom base32 alphabet (`encodeBase32Map`). -/
def encodeBase32Map : List Nat := "7w3x5h9k2m4p6q8r1sdyfgjtnvzbcaeu".toList.map Char.toNat

/-- Go's base58 alphabet (`encodeBase58Map`). -/
def encodeBase58Map : List Nat :=
  "123456789abcdefghijkmnopqrstuvwxyzABCDEFGHJKLMNPQRSTUVWXYZ".toList.map Char.toNat

/-- The URL-safe base64 alphabet (`encodeBase64Map`). -/
def encodeBase64Map : List Nat :=
  "ABCDEFGHIJKLMNOPQRSTUVWXYZabcdefghijklmnopqrstuvwxyz0123456789-_".toList.map Char.toNat

/-- The decode table built by `initDecodeMap`: every byte maps to `0xFF`
except the alphabet's bytes, which map to their index. The Go code fills a
256-entry array; since the alphabets have no duplicate bytes, the
first-index lookup below builds the same table. -/
def decodeMapFn (alph : List Nat) (c : Nat) : Nat :=
  match alph.findIdx? (· == c) with
  | some i => i
  | none => 255

theorem decodeMapFn_of_not_mem {alph : List Nat} {c : Nat} (h : c ∉ alph) :
    decodeMapFn alph c = 255 := by
  unfold decodeMapFn
  have hn : alph.findIdx? (· == c) = none := by
    rw [List.findIdx?_eq_none_iff]
    intro x hx
    simp only [beq_eq_false_iff_ne, ne_eq]
    rintro rfl
    exact h hx
  rw [hn]

/-! ## wrapping 64-bit signed arithmetic -/

/-- Reduce an integer to the signed 64-bit value with the same low 64 bits,
Go's wrapping `int64` arithmetic made explicit. -/
def wrap64 (v : Int) : Int := (v + 2 ^ 63) % 2 ^ 64 - 2 ^ 63

theorem wrap64_eq_of_bounds {v : Int} (h1 : -(2 ^ 63) ≤ v) (h2 : v < 2 ^ 63) :
    wrap64 v = v := by
  unfold wrap64
  rw [Int.emod_eq_of_lt (by omega) (by omega)]
  omega

/-! ## base32 / base58 encode and parse (`ID.Base32`, `ID.Base58`,
`ParseBase32`, `ParseBase58`) -/

/-- `ID.Base32`: zero encodes as the alphabet's first character, negative
values skip the digit loop entirely (empty string), positive values emit
base-32 digits least-significant first and reverse. -/
def idBase32 (f : Int) : List Nat :=
  if f = 0 then [encodeBase32Map.getD 0 0]
  else ((natDigitsRev 32 f.toNat).map (fun d => encodeBase32Map.getD d 0)).reverse

/-- `ID.Base58`: same shape as `ID.Base32` with radix 58. -/
def idBase58 (f : Int) : List Nat :=
  if f = 0 then [encodeBase58Map.getD 0 0]
  else ((natDigitsRev 58 f.toNat).map (fun d => encodeBase58Map.getD d 0)).reverse

/-- The shared loop of `ParseBase32` / `ParseBase58`: left-to-right Horner
accumulation `id = id*radix + digit` in wrapping `int64` arithmetic,
aborting with an error on the first byte whose decode-table entry is
`0xFF`. -/
def parseRadixGo (dec : Nat → Nat) (r : Int) : Int → List Nat → Option Int
  | id, [] => some id
  | id, c :: rest =>
    if dec c = 255 then none
    else parseRadixGo dec r (wrap64 (id * r + (dec c : Int))) rest

/-- `ParseBase32`. -/
def parseBase32 (s : List Nat) : Option Int :=
  parseRadixGo (decodeMapFn encodeBase32Map) 32 0 s

/-- `ParseBase58`. -/
def parseBase58 (s : List Nat) : Option Int :=
  parseRadixGo (decodeMapFn encodeBase58Map) 58 0 s

theorem parseRadixGo_append (dec : Nat → Nat) (r : Int) :
    ∀ (l1 l2 : List Nat) (id : Int),
      parseRadixGo dec r id (l1 ++ l2) =
        match parseRadixGo dec r id l1 with
        | none => none
        | some id2 => parseRadixGo dec r id2 l2 := by
  intro l1
  induction l1 with
  | nil => intro l2 id; rfl
  | cons c rest ih =>
    intro l2 id
    simp only [List.cons_append, parseRadixGo]
    by_cases h : dec c = 255
    · simp [h]
    · simp only [h, if_false]
      exact ih l2 _

theorem parseRadixGo_none_of_mem {dec : Nat → Nat} {r : Int} {s : List Nat}
    {c : Nat} (hc : c ∈ s) (hbad : dec c = 255) :
    ∀ id, parseRadixGo dec r id s = none := by
  induction s with
  | nil => cases hc
  | cons a rest ih =>
    intro id
    rcases List.mem_cons.mp hc with rfl | hmem
    · simp [parseRadixGo, hbad]
    · by_cases ha : dec a = 255
      · simp [parseRadixGo, ha]
      · simp only [parseRadixGo, ha, if_false]
        exact ih hmem _

theorem parseRadixGo_digits (b : Nat) (alph : List Nat) (dec : Nat → Nat)
    (hb : 2 ≤ b) (hb255 : b ≤ 255)
    (hdec : ∀ d, d < b → dec (alph.getD d 0) = d) :
    ∀ x : Nat, x < 2 ^ 63 →
      parseRadixGo dec (b : Int) 0
        (((natDigitsRev b x).map (fun d => alph.getD d 0)).reverse) = some (x : Int) := by
  intro x
  induction x using Nat.strong_induction_on with
  | _ x ih =>
    intro hx
    by_cases hx0 : x = 0
    · subst hx0
      simp [natDigitsRev_zero, parseRadixGo]
    · rw [natDigitsRev_pos hb hx0]
      simp only [List.map_cons, List.reverse_cons]
      rw [parseRadixGo_append]
      have hdiv : x / b < x := Nat.div_lt_self (Nat.pos_of_ne_zero hx0) hb
      rw [ih (x / b) hdiv (lt_of_le_of_lt (Nat.le_of_lt_succ (Nat.lt_succ_of_lt hdiv)) hx)]
      have hmod : x % b < b := Nat.mod_lt _ (by omega)
      simp only [parseRadixGo, hdec (x % b) hmod]
      rw [if_neg (by omega)]
      have harith : ((x / b : Nat) : Int) * (b : Int) + ((x % b : Nat) : Int) = (x : Int) := by
        push_cast
        rw [Int.mul_comm]
        exact_mod_cast congrArg (Nat.cast : Nat → Int) (Nat.div_add_mod x b)
      rw [harith, wrap64_eq_of_bounds
        (le_trans (by norm_num) (Int.ofNat_nonneg x)) (by exact_mod_cast hx)]

/-- Each alphabet byte decodes back to its digit value (base32). -/
theorem decode32_encode32 : ∀ d, d < 32 →
    decodeMapFn encodeBase32Map (encodeBase32Map.getD d 0) = d := by decide

/-- Each alphabet byte decodes back to its digit value (base58). -/
theorem decode58_encode58 : ∀ d, d < 58 →
    decodeMapFn encodeBase58Map (encodeBase58Map.getD d 0) = d := by decide

/-- Round trip of `ParseBase32 (x.Base32())` for non-negative `x`. -/
theorem parseBase32_idBase32 {x : Int} (h0 : 0 ≤ x) (h63 : x < 2 ^ 63) :
    parseBase32 (idBase32 x) = some x := by
  by_cases hx0 : x = 0
  · subst hx0; decide
  · unfold parseBase32 idBase32
    rw [if_neg hx0]
    have h63n : x < 9223372036854775808 := by norm_num at h63; exact h63
    have h0n : (0 : Int) ≤ x := h0
    have hn : x.toNat < 2 ^ 63 := by
      rw [Int.toNat_lt h0]
      exact_mod_cast h63
    have := parseRadixGo_digits 32 encodeBase32Map (decodeMapFn encodeBase32Map)
      (by norm_num) (by norm_num) decode32_encode32 x.toNat hn
    rw [show ((32 : Nat) : Int) = (32 : Int) by norm_num] at this
    rw [this]
    congr 1
    omega

/-- Round trip of `ParseBase58 (x.Base58())` for non-negative `x`. -/
theorem parseBase58_idBase58 {x : Int} (h0 : 0 ≤ x) (h63 : x < 2 ^ 63) :
    parseBase58 (idBase58 x) = some x := by
  by_cases hx0 : x = 0
  · subst hx0; decide
  · unfold parseBase58 idBase58
    rw [if_neg hx0]
    have h63n : x < 9223372036854775808 := by norm_num at h63; exact h63
    have h0n : (0 : Int) ≤ x := h0
    have hn : x.toNat < 2 ^ 63 := by
      rw [Int.toNat_lt h0]
      exact_mod_cast h63
    have := parseRadixGo_digits 58 encodeBase58Map (decodeMapFn encodeBase58Map)
      (by norm_num) (by norm_num) decode58_encode58 x.toNat hn
    rw [show ((58 : Nat) : Int) = (58 : Int) by norm_num] at this
    rw [this]
    congr 1
    omega

/-! ## decimal and binary textual forms (`ID.String`, `ID.Base2`) -/

/-- The most-significant-first digit characters of `n` in radix `b`
(`'0' + d` for each digit, bases up to 10), with `0` rendered as `"0"`:
the digit form produced by `strconv.FormatInt` for bases 2 and 10. -/
def natDigitChars (b n : Nat) : List Nat :=
  if n = 0 then [48] else ((natDigitsRev b n).map (fun d => 48 + d)).reverse

/-- Modelled from the spec: the decimal (`String`, §4.6 "standard base-10
signed-integer textual form") and binary (`Base2`) renderings delegate to
`strconv.FormatInt`, which is not part of this repository: minus sign for
negative values followed by the most-significant-first digits of the
magnitude. -/
def formatIntGo (b : Nat) (x : Int) : List Nat :=
  if x < 0 then 45 :: natDigitChars b (-x).toNat else natDigitChars b x.toNat

/-- `ID.String` (`strconv.FormatInt(int64(f), 10)`). -/
def idString (f : Int) : List Nat := formatIntGo 10 f

/-- `ID.Base2` (`strconv.FormatInt(int64(f), 2)`). -/
def idBase2 (f : Int) : List Nat := formatIntGo 2 f

/-- Digit value of a byte under `strconv.ParseInt`'s digit rules
(`0`-`9`, lowercase and uppercase letters), or `255` for a non-digit. -/
def parseDigit (c : Nat) : Nat :=
  if 48 ≤ c ∧ c ≤ 57 then c - 48
  else if 97 ≤ c ∧ c ≤ 122 then c - 87
  else if 65 ≤ c ∧ c ≤ 90 then c - 55
  else 255

/-- Exact (unbounded) most-significant-first digit accumulation, failing on
a byte that is not a digit below the radix. -/
def parseNatDigits (b : Nat) : Nat → List Nat → Option Nat
  | acc, [] => some acc
  | acc, c :: rest =>
    if parseDigit c < b then parseNatDigits b (acc * b + parseDigit c) rest
    else none

/-- Shared tail of `strconv.ParseInt`: digits after the optional sign,
with the signed 64-bit range check. -/
def parseIntFin (b : Nat) (neg : Bool) (digits : List Nat) : Option Int :=
  if digits = [] then none
  else
    match parseNatDigits b 0 digits with
    | none => none
    | some n =>
      if neg then
        if n ≤ 2 ^ 63 then some (-(n : Int)) else none
      else
        if n < 2 ^ 63 then some (n : Int) else none

/-- Modelled from the spec: the decimal/binary parse direction (§4.6
"Parse accepts any valid 64-bit signed decimal string", §7 `ParseError`)
is `strconv.ParseInt(s, base, 64)`, which is not part of this repository:
an optional sign, at least one digit, and a signed 64-bit range check
(values in `[-2^63, 2^63)`). -/
def parseIntGo (b : Nat) (s : List Nat) : Option Int :=
  match s with
  | [] => none
  | c :: rest =>
    if c = 45 then parseIntFin b true rest
    else if c = 43 then parseIntFin b false rest
    else parseIntFin b false (c :: rest)

theorem parseNatDigits_append (b : Nat) :
    ∀ (l1 l2 : List Nat) (acc : Nat),
      parseNatDigits b acc (l1 ++ l2) =
        match parseNatDigits b acc l1 with
        | none => none
        | some a2 => parseNatDigits b a2 l2 := by
  intro l1
  induction l1 with
  | nil => intro l2 acc; rfl
  | cons c rest ih =>
    intro l2 acc
    simp only [List.cons_append, parseNatDigits]
    by_cases h : parseDigit c < b
    · simp only [h, if_true]
      exact ih l2 _
    · simp [h]

theorem natDigitsRev_mem_lt {b : Nat} (hb : 2 ≤ b) :
    ∀ n : Nat, ∀ d ∈ natDigitsRev b n, d < b := by
  intro n
  induction n using Nat.strong_induction_on with
  | _ n ih =>
    intro d hd
    by_cases hn0 : n = 0
    · subst hn0; rw [natDigitsRev_zero] at hd; cases hd
    · rw [natDigitsRev_pos hb hn0] at hd
      rcases List.mem_cons.mp hd with rfl | hmem
      · exact Nat.mod_lt _ (by omega)
      · exact ih (n / b) (Nat.div_lt_self (Nat.pos_of_ne_zero hn0) hb) d hmem

theorem natDigitChars_ne_nil (b n : Nat) (hb : 2 ≤ b) : natDigitChars b n ≠ [] := by
  unfold natDigitChars
  by_cases h : n = 0
  · simp [h]
  · rw [if_neg h, natDigitsRev_pos hb h]
    simp

theorem natDigitChars_mem_range {b : Nat} (hb : 2 ≤ b) (hb10 : b ≤ 10) (n : Nat) :
    ∀ c ∈ natDigitChars b n, 48 ≤ c ∧ c ≤ 57 := by
  intro c hc
  unfold natDigitChars at hc
  by_cases h : n = 0
  · rw [if_pos h] at hc
    rcases List.mem_singleton.mp hc with rfl
    omega
  · rw [if_neg h] at hc
    rw [List.mem_reverse, List.mem_map] at hc
    obtain ⟨d, hd, rfl⟩ := hc
    have := natDigitsRev_mem_lt hb n d hd
    omega

theorem parseNatDigits_digitChars {b : Nat} (hb : 2 ≤ b) (hb10 : b ≤ 10) :
    ∀ n : Nat, parseNatDigits b 0 (natDigitChars b n) = some n := by
  have key : ∀ n : Nat, n ≠ 0 →
      parseNatDigits b 0 (((natDigitsRev b n).map (fun d => 48 + d)).reverse) = some n := by
    intro n
    induction n using Nat.strong_induction_on with
    | _ n ih =>
      intro hn0
      rw [natDigitsRev_pos hb hn0]
      simp only [List.map_cons, List.reverse_cons]
      rw [parseNatDigits_append]
      have hmod : n % b < b := Nat.mod_lt _ (by omega)
      have hdigit : parseDigit (48 + n % b) = n % b := by
        unfold parseDigit
        rw [if_pos (by omega)]
        omega
      by_cases hq : n / b = 0
      · rw [hq, natDigitsRev_zero]
        simp only [List.map_nil, List.reverse_nil, parseNatDigits, hdigit, hmod, if_true]
        have hnm : n % b = n := by
          conv_rhs => rw [← Nat.div_add_mod n b]
          rw [hq]; omega
        rw [hnm]
        simp
      · have hdiv : n / b < n := Nat.div_lt_self (Nat.pos_of_ne_zero hn0) hb
        rw [ih (n / b) hdiv hq]
        simp only [parseNatDigits, hdigit, hmod, if_true]
        rw [Nat.mul_comm, Nat.div_add_mod n b]
  intro n
  by_cases hn0 : n = 0
  · subst hn0
    have h48 : parseDigit 48 = 0 := by norm_num [parseDigit]
    unfold natDigitChars
    rw [if_pos rfl]
    simp only [parseNatDigits, h48]
    rw [if_pos (by omega)]
    simp [parseNatDigits]
  · unfold natDigitChars
    rw [if_neg hn0]
    exact key n hn0

/-- Round trip of the decimal/binary forms through `strconv.ParseInt`. -/
theorem parseIntGo_formatIntGo {b : Nat} (hb : 2 ≤ b) (hb10 : b ≤ 10)
    {x : Int} (h1 : -(2 ^ 63) ≤ x) (h2 : x < 2 ^ 63) :
    parseIntGo b (formatIntGo b x) = some x := by
  unfold formatIntGo
  by_cases hneg : x < 0
  · rw [if_pos hneg]
    simp only [parseIntGo]
    rw [if_pos trivial]
    unfold parseIntFin
    rw [if_neg (natDigitChars_ne_nil b _ hb)]
    rw [parseNatDigits_digitChars hb hb10]
    simp only [if_pos rfl]
    have hle : (-x).toNat ≤ 2 ^ 63 := by
      have h63 : (-x) ≤ 9223372036854775808 := by norm_num at h1 ⊢; omega
      have := Int.toNat_le_toNat h63
      norm_num at this ⊢
      exact this
    rw [if_pos hle]
    rw [Int.toNat_of_nonneg (by omega)]
    rw [neg_neg]
    rw [if_pos trivial]
  · rw [if_neg hneg]
    rcases hcons : natDigitChars b x.toNat with _ | ⟨c, rest⟩
    · exact absurd hcons (natDigitChars_ne_nil b _ hb)
    · have hcr := natDigitChars_mem_range hb hb10 x.toNat c (hcons ▸ List.mem_cons_self c rest)
      simp only [parseIntGo]
      rw [if_neg (by omega), if_neg (by omega)]
      unfold parseIntFin
      rw [if_neg (by simp)]
      rw [← hcons, parseNatDigits_digitChars hb hb10]
      simp only [Bool.false_eq_true, if_false]
      have hlt : x.toNat < 2 ^ 63 := by
        rw [Int.toNat_lt (by omega)]
        exact_mod_cast h2
      rw [if_pos hlt]
      congr 1
      omega

/-! ## base64 (`ID.Base64`, `ParseBase64`) -/

/-- The big-endian `k`-byte representation of `n`
(`binary.BigEndian.PutUint64` for `k = 8`). -/
def natToBytesBE : Nat → Nat → List Nat
  | 0, _ => []
  | k + 1, n => (n / 256 ^ k) % 256 :: natToBytesBE k n

/-- Modelled from the spec: §4.6 delegates base64 to Go's standard
unpadded URL-safe encoder (`base64.RawURLEncoding`), which is not part of
this repository. Encoding of a byte stream into 6-bit values, three bytes
to four values, with the standard 1- and 2-byte tails. -/
def b64encvals : List Nat → List Nat
  | [] => []
  | [b0] => [b0 / 4, b0 % 4 * 16]
  | [b0, b1] => [b0 / 4, b0 % 4 * 16 + b1 / 16, b1 % 16 * 4]
  | b0 :: b1 :: b2 :: rest =>
      b0 / 4 :: (b0 % 4 * 16 + b1 / 16) :: (b1 % 16 * 4 + b2 / 64) :: b2 % 64 ::
        b64encvals rest

/-- `base64.RawURLEncoding.EncodeToString`: 6-bit values rendered through
the URL-safe alphabet. -/
def b64encode (bytes : List Nat) : List Nat :=
  (b64encvals bytes).map (fun v => encodeBase64Map.getD v 0)

/-- Modelled from the spec: decoder direction of the standard unpadded
URL-safe base64 (`base64.RawURLEncoding.DecodeString`), 6-bit values back
to bytes; a lone trailing value is structurally invalid. -/
def b64decvals : List Nat → Option (List Nat)
  | [] => some []
  | [_] => none
  | [v0, v1] => some [v0 * 4 + v1 / 16]
  | [v0, v1, v2] => some [v0 * 4 + v1 / 16, v1 % 16 * 16 + v2 / 4]
  | v0 :: v1 :: v2 :: v3 :: rest =>
      (b64decvals rest).map
        (fun tail => (v0 * 4 + v1 / 16) :: (v1 % 16 * 16 + v2 / 4) :: (v2 % 4 * 64 + v3) :: tail)

/-- Each input byte of the base64 decoder through the alphabet table;
a byte outside the alphabet is structurally invalid. -/
def b64charVals : List Nat → Option (List Nat)
  | [] => some []
  | c :: rest =>
    if decodeMapFn encodeBase64Map c = 255 then none
    else (b64charVals rest).map (decodeMapFn encodeBase64Map c :: ·)

/-- `base64.RawURLEncoding.DecodeString`, modelled from the spec. -/
def b64decode (s : List Nat) : Option (List Nat) :=
  (b64charVals s).bind b64decvals

/-- Unsigned 64-bit bit pattern of a signed 64-bit value (`uint64(f)`). -/
def toUint64 (f : Int) : Nat := (f % (2 : Int) ^ 64).toNat

/-- Signed 64-bit value of an unsigned 64-bit bit pattern (`ID(id)` for a
`uint64` accumulator). -/
def toInt64 (n : Nat) : Int := if n < 2 ^ 63 then (n : Int) else (n : Int) - 2 ^ 64

/-- `ID.Base64`: big-endian 8-byte form, leading zero bytes stripped,
then unpadded URL-safe base64. -/
def idBase64 (f : Int) : List Nat :=
  b64encode ((natToBytesBE 8 (toUint64 f)).dropWhile (· == 0))

/-- `ParseBase64`: decode, then fold the bytes with `id = id<<8 | b` in
`uint64` arithmetic. -/
def parseBase64 (s : List Nat) : Option Int :=
  (b64decode s).map
    (fun data => toInt64 (data.foldl (fun id b => ((id <<< 8) % 2 ^ 64) ||| b) 0))

/-- Each alphabet byte decodes back to its 6-bit value (base64). -/
theorem decode64_encode64 : ∀ d, d < 64 →
    decodeMapFn encodeBase64Map (encodeBase64Map.getD d 0) = d := by decide

theorem b64encvals_mem_lt : ∀ (bytes : List Nat), (∀ b ∈ bytes, b < 256) →
    ∀ v ∈ b64encvals bytes, v < 64 := by
  intro bytes
  induction bytes using b64encvals.induct with
  | case1 =>
    intro _ v hv
    cases hv
  | case2 b0 =>
    intro hb v hv
    have h0 : b0 < 256 := hb b0 (by simp)
    simp only [b64encvals, List.mem_cons, List.not_mem_nil, or_false] at hv
    rcases hv with rfl | rfl <;> omega
  | case3 b0 b1 =>
    intro hb v hv
    have h0 : b0 < 256 := hb b0 (by simp)
    have h1 : b1 < 256 := hb b1 (by simp)
    simp only [b64encvals, List.mem_cons, List.not_mem_nil, or_false] at hv
    rcases hv with rfl | rfl | rfl <;> omega
  | case4 b0 b1 b2 rest ih =>
    intro hb v hv
    have h0 : b0 < 256 := hb b0 (by simp)
    have h1 : b1 < 256 := hb b1 (by simp)
    have h2 : b2 < 256 := hb b2 (by simp)
    simp only [b64encvals, List.mem_cons] at hv
    rcases hv with rfl | rfl | rfl | rfl | hmem
    · omega
    · omega
    · omega
    · omega
    · exact ih (fun b hbm => hb b (by simp [hbm])) v hmem

theorem b64charVals_map {vs : List Nat} (h : ∀ v ∈ vs, v < 64) :
    b64charVals (vs.map (fun v => encodeBase64Map.getD v 0)) = some vs := by
  induction vs with
  | nil => rfl
  | cons v rest ih =>
    have hv : v < 64 := h v (by simp)
    simp only [List.map_cons, b64charVals, decode64_encode64 v hv]
    rw [if_neg (by omega)]
    rw [ih (fun w hw => h w (by simp [hw]))]
    rfl

theorem b64decvals_encvals : ∀ (bytes : List Nat), (∀ b ∈ bytes, b < 256) →
    b64decvals (b64encvals bytes) = some bytes := by
  intro bytes
  induction bytes using b64encvals.induct with
  | case1 => intro _; rfl
  | case2 b0 =>
    intro hb
    have h0 : b0 < 256 := hb b0 (by simp)
    simp only [b64encvals, b64decvals]
    congr 2
    omega
  | case3 b0 b1 =>
    intro hb
    have h0 : b0 < 256 := hb b0 (by simp)
    have h1 : b1 < 256 := hb b1 (by simp)
    simp only [b64encvals, b64decvals]
    congr 2
    · omega
    · congr 1
      omega
  | case4 b0 b1 b2 rest ih =>
    intro hb
    have h0 : b0 < 256 := hb b0 (by simp)
    have h1 : b1 < 256 := hb b1 (by simp)
    have h2 : b2 < 256 := hb b2 (by simp)
    have hrest := ih (fun b hbm => hb b (by simp [hbm]))
    have e0 : b0 / 4 * 4 + (b0 % 4 * 16 + b1 / 16) / 16 = b0 := by omega
    have e1 : (b0 % 4 * 16 + b1 / 16) % 16 * 16 + (b1 % 16 * 4 + b2 / 64) / 4 = b1 := by
      omega
    have e2 : (b1 % 16 * 4 + b2 / 64) % 4 * 64 + b2 % 64 = b2 := by omega
    have hdec : ∀ (v0 v1 v2 v3 : Nat) (t : List Nat),
        b64decvals (v0 :: v1 :: v2 :: v3 :: t) =
          (b64decvals t).map
            (fun tail =>
              (v0 * 4 + v1 / 16) :: (v1 % 16 * 16 + v2 / 4) :: (v2 % 4 * 64 + v3) :: tail) :=
      fun _ _ _ _ _ => rfl
    simp only [b64encvals]
    rw [hdec, hrest]
    show some _ = some _
    rw [e0, e1, e2]

theorem natToBytesBE_mem_lt : ∀ (k n : Nat), ∀ b ∈ natToBytesBE k n, b < 256 := by
  intro k
  induction k with
  | zero => intro n b hb; cases hb
  | succ k ih =>
    intro n b hb
    rcases List.mem_cons.mp hb with rfl | hmem
    · exact Nat.mod_lt _ (by omega)
    · exact ih n b hmem

theorem dropWhile_mem_of_mem {p : Nat → Bool} {l : List Nat} :
    ∀ b ∈ l.dropWhile p, b ∈ l := by
  intro b hb
  exact (List.dropWhile_sublist p).subset hb

theorem foldl_bytes_natToBytesBE :
    ∀ (k n acc : Nat), acc * 256 ^ k + n % 256 ^ k < 2 ^ 64 →
      (natToBytesBE k n).foldl (fun id b => ((id <<< 8) % 2 ^ 64) ||| b) acc =
        acc * 256 ^ k + n % 256 ^ k := by
  intro k
  induction k with
  | zero =>
    intro n acc hlt
    simp [natToBytesBE, Nat.mod_one]
  | succ k ih =>
    intro n acc hlt
    have hsplit : n % 256 ^ (k + 1) = n % 256 ^ k + 256 ^ k * (n / 256 ^ k % 256) := by
      rw [Nat.pow_succ, Nat.mul_comm (256 ^ k) 256]
      rw [show (256 * 256 ^ k : Nat) = 256 ^ k * 256 from Nat.mul_comm _ _]
      exact Nat.mod_mul
    have hb : n / 256 ^ k % 256 < 2 ^ 8 := Nat.mod_lt _ (by omega)
    have hacc : acc * 256 + n / 256 ^ k % 256 < 2 ^ 64 := by
      have h1 : 256 ≤ 256 ^ (k + 1) := by
        calc (256 : Nat) = 256 ^ 1 := (pow_one 256).symm
        _ ≤ 256 ^ (k + 1) := Nat.pow_le_pow_right (by omega) (by omega)
      have h2 : acc * 256 ≤ acc * 256 ^ (k + 1) := Nat.mul_le_mul_left acc h1
      omega
    have hstep : ((acc <<< 8) % 2 ^ 64) ||| (n / 256 ^ k % 256) =
        acc * 256 + n / 256 ^ k % 256 := by
      rw [Nat.shiftLeft_eq]
      rw [Nat.mod_eq_of_lt (by omega)]
      rw [show acc * 2 ^ 8 = 2 ^ 8 * acc from Nat.mul_comm _ _]
      rw [show acc * 256 = 2 ^ 8 * acc by omega]
      exact (Nat.mul_add_lt_is_or hb acc).symm
    have heq : (acc * 256 + n / 256 ^ k % 256) * 256 ^ k + n % 256 ^ k =
        acc * 256 ^ (k + 1) + n % 256 ^ (k + 1) := by
      rw [hsplit, Nat.pow_succ]
      ring
    simp only [natToBytesBE, List.foldl_cons, hstep]
    rw [ih n (acc * 256 + n / 256 ^ k % 256) (by rw [heq]; exact hlt)]
    exact heq

theorem foldl_bytes_dropWhile_zero (l : List Nat) :
    (l.dropWhile (· == 0)).foldl (fun id b => ((id <<< 8) % 2 ^ 64) ||| b) 0 =
      l.foldl (fun id b => ((id <<< 8) % 2 ^ 64) ||| b) 0 := by
  induction l with
  | nil => rfl
  | cons b rest ih =>
    by_cases hb : b = 0
    · subst hb
      rw [List.dropWhile_cons_of_pos (by simp)]
      simpa using ih
    · rw [List.dropWhile_cons_of_neg (by simp [hb])]

theorem toInt64_toUint64 {x : Int} (h1 : -(2 ^ 63) ≤ x) (h2 : x < 2 ^ 63) :
    toInt64 (toUint64 x) = x := by
  unfold toInt64 toUint64
  by_cases hx : 0 ≤ x
  · have hmod : x % (2 : Int) ^ 64 = x := Int.emod_eq_of_lt hx (by omega)
    rw [hmod, Int.toNat_of_nonneg hx]
    rw [if_pos (by omega)]
  · have h264 : (2 : Int) ^ 64 = 18446744073709551616 := by norm_num
    have h163 : -(9223372036854775808 : Int) ≤ x := by norm_num at h1; exact h1
    have hmod : x % (2 : Int) ^ 64 = x + 2 ^ 64 := by rw [h264]; omega
    rw [hmod]
    have hnn : (0 : Int) ≤ x + 2 ^ 64 := by rw [h264]; omega
    have hcast : (((x + 2 ^ 64).toNat : Nat) : Int) = x + 2 ^ 64 := Int.toNat_of_nonneg hnn
    have hge : ¬ ((x + 2 ^ 64).toNat < 2 ^ 63) := by
      intro hlt
      have h2c : (((x + 2 ^ 64).toNat : Nat) : Int) < ((2 ^ 63 : Nat) : Int) := by
        exact_mod_cast hlt
      rw [hcast, h264] at h2c
      norm_num at h2c
      omega
    rw [if_neg hge, hcast]
    ring

/-- Round trip of `ParseBase64 (x.Base64())` for every signed 64-bit
value, negative identifiers included. -/
theorem parseBase64_idBase64 {x : Int} (h1 : -(2 ^ 63) ≤ x) (h2 : x < 2 ^ 63) :
    parseBase64 (idBase64 x) = some x := by
  have hu : toUint64 x < 2 ^ 64 := by
    unfold toUint64
    rw [show ((2 : Nat) ^ 64) = (18446744073709551616 : Nat) by norm_num]
    rw [show ((2 : Int) ^ 64) = (18446744073709551616 : Int) by norm_num]
    omega
  set bytes := (natToBytesBE 8 (toUint64 x)).dropWhile (· == 0) with hbytes
  have hbm : ∀ b ∈ bytes, b < 256 := fun b hb =>
    natToBytesBE_mem_lt 8 (toUint64 x) b (dropWhile_mem_of_mem b hb)
  have hdec : b64decode (b64encode bytes) = some bytes := by
    unfold b64decode b64encode
    rw [b64charVals_map (b64encvals_mem_lt bytes hbm)]
    show b64decvals (b64encvals bytes) = some bytes
    exact b64decvals_encvals bytes hbm
  have hfold : bytes.foldl (fun id b => ((id <<< 8) % 2 ^ 64) ||| b) 0 = toUint64 x := by
    rw [hbytes, foldl_bytes_dropWhile_zero]
    have hb2 : (0 : Nat) * 256 ^ 8 + toUint64 x % 256 ^ 8 < 2 ^ 64 := by
      norm_num at hu ⊢
      omega
    rw [foldl_bytes_natToBytesBE 8 (toUint64 x) 0 hb2]
    norm_num at hu ⊢
    omega
  unfold parseBase64 idBase64
  rw [← hbytes, hdec]
  show some (toInt64 (bytes.foldl (fun id b => ((id <<< 8) % 2 ^ 64) ||| b) 0)) = some x
  rw [hfold, toInt64_toUint64 h1 h2]

/-! ## Generator configuration (`Config`, `NewNodeWithConfig`) -/

/-- `Config`: epoch offset in ms, bit widths (Go `uint8`), node number. -/
structure Config where
  epoch : Int
  nodeBits : Nat
  stepBits : Nat
  node : Int

/-- The immutable part of Go's `Node`: the configured node number and the
precomputed shift/mask constants. All are validated non-negative `int64`
values, so they are carried as `Nat`. The mutable `{time, step}` pair and
the epoch instant are kept separately. -/
structure NodeC where
  node : Nat
  nodeMax : Nat
  nodeMask : Nat
  stepMask : Nat
  timeShift : Nat
  nodeShift : Nat
deriving DecidableEq, Repr

/-- `NewNodeWithConfig`: validation and derivation of the constants.
Go computes `nodeMax`/`stepMask` as `-1 ^ (-1 << bits)`, which equals
`2^bits - 1` for the validated widths. -/
def newNodeWithConfig (cfg : Config) : Option NodeC :=
  if cfg.nodeBits > 16 then none
  else if cfg.stepBits > 16 then none
  else if cfg.nodeBits + cfg.stepBits > 22 then none
  else if cfg.node < 0 ∨ ((2 ^ cfg.nodeBits - 1 : Nat) : Int) < cfg.node then none
  else some
    { node := cfg.node.toNat
      nodeMax := 2 ^ cfg.nodeBits - 1
      nodeMask := (2 ^ cfg.nodeBits - 1) <<< cfg.stepBits
      stepMask := 2 ^ cfg.stepBits - 1
      timeShift := cfg.nodeBits + cfg.stepBits
      nodeShift := cfg.stepBits }

/-! ## Identifier packing and component extraction -/

/-- The identifier built by `Generate`/`GenerateBatch`:
`(now << timeShift) | (node << nodeShift) | step`, as the unsigned 64-bit
bit pattern of the wrapping `int64` computation. -/
def pack (c : NodeC) (now step : Nat) : Nat :=
  ((now <<< c.timeShift) ||| (c.node <<< c.nodeShift) ||| step) % 2 ^ 64

/-- `ID.NodeID`: `int64(f) & nodeMask >> nodeShift` (Go's `&` and `>>`
share a precedence level and associate left). -/
def idNodeID (c : NodeC) (f : Nat) : Nat := (f &&& c.nodeMask) >>> c.nodeShift

/-- `ID.Step`: `int64(f) & stepMask`. -/
def idStep (c : NodeC) (f : Nat) : Nat := f &&& c.stepMask

/-! ## The generator state machine (`Node.Generate`, `Node.GenerateBatch`) -/

/-- The mutable generator state: Go `Node`'s `time` and `step` fields,
both zero-valued at construction. -/
structure GenSt where
  time : Nat
  step : Nat
deriving DecidableEq, Repr

/-- The busy-wait loop `for now <= n.time { now = sample the clock }`:
consume samples until one exceeds `t`; `none` when the stream runs dry
(the real loop would still be spinning). -/
def genWait (t : Nat) : List Nat → Option (Nat × List Nat)
  | [] => none
  | n :: rest => if n ≤ t then genWait t rest else some (n, rest)

/-- `Node.Generate` over a clock-sample stream: returns the new state, the
issued identifier and the unconsumed samples. -/
def generateM (c : NodeC) (st : GenSt) : List Nat → Option (GenSt × Nat × List Nat)
  | [] => none
  | now :: rest =>
    if now = st.time then
      let s := (st.step + 1) &&& c.stepMask
      if s = 0 then
        match genWait st.time rest with
        | none => none
        | some (now2, rest2) => some (⟨now2, 0⟩, pack c now2 0, rest2)
      else some (⟨now, s⟩, pack c now s, rest)
    else some (⟨now, 0⟩, pack c now 0, rest)

/-- A run of consecutive `Generate` calls, returning the issued
identifiers in call order. -/
def genRun (c : NodeC) (st : GenSt) : Nat → List Nat → Option (GenSt × List Nat × List Nat)
  | 0, samples => some (st, [], samples)
  | k + 1, samples =>
    match generateM c st samples with
    | none => none
    | some (st1, id, rest) =>
      match genRun c st1 k rest with
      | none => none
      | some (st2, ids, rest2) => some (st2, id :: ids, rest2)

/-- `Node.GenerateBatch` over a clock-sample stream. The argument checks
fail before the generator state or the clock is touched; a batch that must
wait for the next millisecond restarts the step at 0; the emit loop issues
`count` identifiers starting at the current step, incrementing it after
each one. `Except.error` is the `ArgumentError` path, `Except.ok none` is
an exhausted sample stream. -/
def generateBatchM (c : NodeC) (st : GenSt) (count : Int) (samples : List Nat) :
    Except String (Option (GenSt × List Nat × List Nat)) :=
  if count ≤ 0 then .error "count must be positive"
  else if (c.stepMask : Int) < count then .error "count must be <= stepMask"
  else
    match samples with
    | [] => .ok none
    | now :: rest =>
      if now = st.time then
        if (c.stepMask : Int) < (st.step : Int) + count then
          match genWait st.time rest with
          | none => .ok none
          | some (now2, rest2) =>
            .ok (some (⟨now2, count.toNat⟩,
              (List.range count.toNat).map (fun i => pack c now2 i), rest2))
        else
          .ok (some (⟨now, st.step + count.toNat⟩,
            (List.range count.toNat).map (fun i => pack c now (st.step + i)), rest))
      else
        .ok (some (⟨now, count.toNat⟩,
          (List.range count.toNat).map (fun i => pack c now i), rest))

/-! ## The state transition as the specification words it (claim C4) -/

/-- Written from the specification's words: "busy-wait, repeatedly
re-sampling the clock, until `now` strictly exceeds `lastTime`". -/
def specWait (lastTime : Nat) : List Nat → Option (Nat × List Nat)
  | [] => none
  | now :: rest => if lastTime < now then some (now, rest) else specWait lastTime rest

/-- Written from the specification's words: if `now == lastTime`,
`step := (step+1) & stepMask`, and when that wraps to 0 re-sample until
`now > lastTime`; if `now != lastTime` (including `now < lastTime`),
`step := 0`; finally `lastTime := now` and the result is
`(now << timeShift) | (node << nodeShift) | step`. -/
def generateSpec (c : NodeC) (st : GenSt) : List Nat → Option (GenSt × Nat × List Nat)
  | [] => none
  | now :: rest =>
    if now = st.time then
      if (st.step + 1) &&& c.stepMask = 0 then
        (specWait st.time rest).map (fun p => (⟨p.1, 0⟩, pack c p.1 0, p.2))
      else
        some (⟨now, (st.step + 1) &&& c.stepMask⟩,
          pack c now ((st.step + 1) &&& c.stepMask), rest)
    else some (⟨now, 0⟩, pack c now 0, rest)

theorem genWait_eq_specWait (t : Nat) : ∀ l : List Nat, genWait t l = specWait t l := by
  intro l
  induction l with
  | nil => rfl
  | cons n rest ih =>
    simp only [genWait, specWait]
    by_cases h : n ≤ t
    · rw [if_pos h, if_neg (by omega), ih]
    · rw [if_neg h, if_pos (by omega)]

/-! ## Arithmetic facts about `pack` and the derived constants -/

theorem newNodeWithConfig_some {cfg : Config} {c : NodeC}
    (h : newNodeWithConfig cfg = some c) :
    cfg.nodeBits ≤ 16 ∧ cfg.stepBits ≤ 16 ∧ cfg.nodeBits + cfg.stepBits ≤ 22 ∧
    c.node ≤ c.nodeMax ∧ c.nodeMax = 2 ^ cfg.nodeBits - 1 ∧
    c.nodeMask = (2 ^ cfg.nodeBits - 1) <<< cfg.stepBits ∧
    c.stepMask = 2 ^ cfg.stepBits - 1 ∧
    c.timeShift = cfg.nodeBits + cfg.stepBits ∧ c.nodeShift = cfg.stepBits := by
  unfold newNodeWithConfig at h
  by_cases h1 : cfg.nodeBits > 16
  · rw [if_pos h1] at h; cases h
  rw [if_neg h1] at h
  by_cases h2 : cfg.stepBits > 16
  · rw [if_pos h2] at h; cases h
  rw [if_neg h2] at h
  by_cases h3 : cfg.nodeBits + cfg.stepBits > 22
  · rw [if_pos h3] at h; cases h
  rw [if_neg h3] at h
  by_cases h4 : cfg.node < 0 ∨ ((2 ^ cfg.nodeBits - 1 : Nat) : Int) < cfg.node
  · rw [if_pos h4] at h; cases h
  rw [if_neg h4] at h
  cases h
  push_neg at h4
  refine ⟨by omega, by omega, by omega, ?_, rfl, rfl, rfl, rfl, rfl⟩
  show cfg.node.toNat ≤ 2 ^ cfg.nodeBits - 1
  omega

/-- The node-and-step field is below the timestamp field. -/
theorem nodeField_lt {cfg : Config} {c : NodeC} (hc : newNodeWithConfig cfg = some c)
    {step : Nat} (hstep : step ≤ c.stepMask) :
    c.node * 2 ^ c.nodeShift + step < 2 ^ c.timeShift := by
  obtain ⟨hnb, hsb, hsum, hnode, hmax, hmask, hsmask, hts, hns⟩ := newNodeWithConfig_some hc
  rw [hts, hns]
  rw [hmax] at hnode
  rw [hsmask] at hstep
  have h3 : (0 : Nat) < 2 ^ cfg.nodeBits := Nat.two_pow_pos _
  have h4 : (0 : Nat) < 2 ^ cfg.stepBits := Nat.two_pow_pos _
  have h1 : c.node * 2 ^ cfg.stepBits ≤ (2 ^ cfg.nodeBits - 1) * 2 ^ cfg.stepBits :=
    Nat.mul_le_mul_right _ hnode
  have h2 : (2 ^ cfg.nodeBits - 1) * 2 ^ cfg.stepBits =
      2 ^ (cfg.nodeBits + cfg.stepBits) - 2 ^ cfg.stepBits := by
    rw [Nat.sub_mul, one_mul, pow_add]
  have h6 : 2 ^ cfg.stepBits ≤ 2 ^ (cfg.nodeBits + cfg.stepBits) :=
    Nat.pow_le_pow_right (by omega) (by omega)
  omega

/-- `pack` as exact arithmetic before the 64-bit truncation. -/
theorem pack_eq_mod {cfg : Config} {c : NodeC} (hc : newNodeWithConfig cfg = some c)
    {now step : Nat} (hstep : step ≤ c.stepMask) :
    pack c now step =
      (now * 2 ^ c.timeShift + c.node * 2 ^ c.nodeShift + step) % 2 ^ 64 := by
  obtain ⟨hnb, hsb, hsum, hnode, hmax, hmask, hsmask, hts, hns⟩ := newNodeWithConfig_some hc
  have hstep2 : step < 2 ^ c.nodeShift := by
    rw [hns]
    rw [hsmask] at hstep
    have h4 : (0 : Nat) < 2 ^ cfg.stepBits := Nat.two_pow_pos _
    omega
  have hfield := nodeField_lt hc hstep
  unfold pack
  rw [Nat.shiftLeft_eq, Nat.shiftLeft_eq, Nat.lor_assoc]
  rw [show c.node * 2 ^ c.nodeShift = 2 ^ c.nodeShift * c.node from Nat.mul_comm _ _]
  rw [← Nat.mul_add_lt_is_or hstep2 c.node]
  rw [show 2 ^ c.nodeShift * c.node = c.node * 2 ^ c.nodeShift from Nat.mul_comm _ _]
  rw [show now * 2 ^ c.timeShift = 2 ^ c.timeShift * now from Nat.mul_comm _ _]
  rw [← Nat.mul_add_lt_is_or hfield now]
  rw [show 2 ^ c.timeShift * now = now * 2 ^ c.timeShift from Nat.mul_comm _ _]
  rw [Nat.add_assoc]

/-- `pack` without truncation, for timestamps that fit their field. -/
theorem pack_eq_add {cfg : Config} {c : NodeC} (hc : newNodeWithConfig cfg = some c)
    {now step : Nat} (hnow : now < 2 ^ (64 - c.timeShift)) (hstep : step ≤ c.stepMask) :
    pack c now step = now * 2 ^ c.timeShift + c.node * 2 ^ c.nodeShift + step := by
  obtain ⟨hnb, hsb, hsum, hnode, hmax, hmask, hsmask, hts, hns⟩ := newNodeWithConfig_some hc
  have hfield := nodeField_lt hc hstep
  have htotal : now * 2 ^ c.timeShift + c.node * 2 ^ c.nodeShift + step < 2 ^ 64 := by
    have hKT : 2 ^ (64 - c.timeShift) * 2 ^ c.timeShift = 2 ^ 64 := by
      rw [← pow_add]
      congr 1
      omega
    have h2 : (now + 1) * 2 ^ c.timeShift ≤ 2 ^ (64 - c.timeShift) * 2 ^ c.timeShift :=
      Nat.mul_le_mul_right _ (by omega)
    have h4 : (now + 1) * 2 ^ c.timeShift = now * 2 ^ c.timeShift + 2 ^ c.timeShift := by
      ring
    omega
  rw [pack_eq_mod hc hstep, Nat.mod_eq_of_lt htotal]

/-- Masking with a shifted mask is shifting, masking, shifting back. -/
theorem and_shiftLeft_mask (x m s : Nat) :
    x &&& (m <<< s) = ((x >>> s) &&& m) <<< s := by
  apply Nat.eq_of_testBit_eq
  intro i
  simp only [Nat.testBit_land, Nat.testBit_shiftLeft, Nat.testBit_shiftRight]
  by_cases h : s ≤ i
  · rw [decide_eq_true h]
    simp only [Bool.true_and]
    rw [Nat.add_sub_cancel' h]
  · rw [decide_eq_false h]
    simp only [Bool.false_and, Bool.and_false]

theorem shiftLeft_shiftRight_cancel (y s : Nat) : (y <<< s) >>> s = y := by
  rw [Nat.shiftLeft_eq, Nat.shiftRight_eq_div_pow]
  exact Nat.mul_div_cancel y (Nat.two_pow_pos s)

/-- Step extraction inverts packing, for any timestamp value. -/
theorem idStep_pack {cfg : Config} {c : NodeC} (hc : newNodeWithConfig cfg = some c)
    {now step : Nat} (hstep : step ≤ c.stepMask) :
    idStep c (pack c now step) = step := by
  obtain ⟨hnb, hsb, hsum, hnode, hmax, hmask, hsmask, hts, hns⟩ := newNodeWithConfig_some hc
  unfold idStep
  rw [pack_eq_mod hc hstep, hsmask, Nat.and_pow_two_sub_one_eq_mod]
  rw [Nat.mod_mod_of_dvd _ (pow_dvd_pow 2 (by omega))]
  have hfac : now * 2 ^ c.timeShift + c.node * 2 ^ c.nodeShift + step =
      2 ^ cfg.stepBits * (2 ^ cfg.nodeBits * now + c.node) + step := by
    rw [hts, hns, pow_add]
    ring
  rw [hfac, Nat.mul_add_mod]
  have hstep2 : step < 2 ^ cfg.stepBits := by
    rw [hsmask] at hstep
    have := Nat.two_pow_pos cfg.stepBits
    omega
  exact Nat.mod_eq_of_lt hstep2

/-- Node extraction inverts packing, for any timestamp value. -/
theorem idNodeID_pack {cfg : Config} {c : NodeC} (hc : newNodeWithConfig cfg = some c)
    {now step : Nat} (hstep : step ≤ c.stepMask) :
    idNodeID c (pack c now step) = c.node := by
  obtain ⟨hnb, hsb, hsum, hnode, hmax, hmask, hsmask, hts, hns⟩ := newNodeWithConfig_some hc
  unfold idNodeID
  rw [hmask, and_shiftLeft_mask, hns, shiftLeft_shiftRight_cancel]
  rw [pack_eq_mod hc hstep]
  rw [Nat.shiftRight_eq_div_pow]
  have h64 : (2 : Nat) ^ 64 = 2 ^ cfg.stepBits * 2 ^ (64 - cfg.stepBits) := by
    rw [← pow_add]
    congr 1
    omega
  rw [h64, Nat.mod_mul_right_div_self]
  rw [Nat.and_pow_two_sub_one_eq_mod]
  rw [Nat.mod_mod_of_dvd _ (pow_dvd_pow 2 (by omega))]
  have hstep2 : step < 2 ^ cfg.stepBits := by
    rw [hsmask] at hstep
    have := Nat.two_pow_pos cfg.stepBits
    omega
  have hfac : now * 2 ^ c.timeShift + c.node * 2 ^ c.nodeShift + step =
      2 ^ cfg.stepBits * (2 ^ cfg.nodeBits * now + c.node) + step := by
    rw [hts, hns, pow_add]
    ring
  rw [hfac, Nat.mul_add_div (Nat.two_pow_pos _), Nat.div_eq_of_lt hstep2]
  rw [Nat.add_zero, Nat.mul_add_mod]
  rw [hmax] at hnode
  have := Nat.two_pow_pos cfg.nodeBits
  exact Nat.mod_eq_of_lt (by omega)

/-- Packed identifiers are ordered by (timestamp, step) when the
timestamp fits its field. -/
theorem pack_mono {cfg : Config} {c : NodeC} (hc : newNodeWithConfig cfg = some c)
    {t1 t2 s1 s2 : Nat} (ht1 : t1 < 2 ^ (64 - c.timeShift)) (ht2 : t2 < 2 ^ (64 - c.timeShift))
    (hs1 : s1 ≤ c.stepMask) (hs2 : s2 ≤ c.stepMask)
    (hord : t1 < t2 ∨ (t1 = t2 ∧ s1 ≤ s2)) :
    pack c t1 s1 ≤ pack c t2 s2 := by
  rw [pack_eq_add hc ht1 hs1, pack_eq_add hc ht2 hs2]
  rcases hord with hlt | ⟨rfl, hle⟩
  · have hfield := nodeField_lt hc hs1
    have h2 : (t1 + 1) * 2 ^ c.timeShift ≤ t2 * 2 ^ c.timeShift :=
      Nat.mul_le_mul_right _ (by omega)
    have h4 : (t1 + 1) * 2 ^ c.timeShift = t1 * 2 ^ c.timeShift + 2 ^ c.timeShift := by
      ring
    omega
  · omega

theorem generateM_eq_generateSpec (c : NodeC) (st : GenSt) :
    ∀ samples, generateM c st samples = generateSpec c st samples := by
  intro samples
  cases samples with
  | nil => rfl
  | cons now rest =>
    simp only [generateM, generateSpec, genWait_eq_specWait]
    by_cases h1 : now = st.time
    · simp only [if_pos h1]
      by_cases h2 : (st.step + 1) &&& c.stepMask = 0
      · simp only [h2, if_pos rfl]
        rcases hw : specWait st.time rest with _ | ⟨p1, p2⟩
        · rfl
        · rfl
      · simp only [if_neg h2]
    · simp only [if_neg h1]

theorem genWait_facts {t : Nat} :
    ∀ {l : List Nat} {n : Nat} {rest : List Nat},
      genWait t l = some (n, rest) → t < n ∧ (n :: rest) <:+ l := by
  intro l
  induction l with
  | nil => intro n rest h; cases h
  | cons m tail ih =>
    intro n rest h
    simp only [genWait] at h
    by_cases hm : m ≤ t
    · rw [if_pos hm] at h
      obtain ⟨h1, h2⟩ := ih h
      exact ⟨h1, h2.trans (List.suffix_cons m tail)⟩
    · rw [if_neg hm] at h
      cases h
      exact ⟨by omega, List.suffix_refl _⟩

/-- One `Generate` call preserves the generator invariants and issues a
non-decreasing identifier, provided the clock samples are sorted and at or
after the state's last time. -/
theorem generateM_step {cfg : Config} {c : NodeC} (hc : newNodeWithConfig cfg = some c)
    {st : GenSt} {samples : List Nat} {st1 : GenSt} {id : Nat} {rest : List Nat}
    (hstep : st.step ≤ c.stepMask)
    (htime : st.time < 2 ^ (64 - c.timeShift))
    (hsort : samples.Sorted (· ≤ ·))
    (hge : ∀ s ∈ samples, st.time ≤ s)
    (hbnd : ∀ s ∈ samples, s < 2 ^ (64 - c.timeShift))
    (h : generateM c st samples = some (st1, id, rest)) :
    id = pack c st1.time st1.step ∧
    pack c st.time st.step ≤ id ∧
    st1.step ≤ c.stepMask ∧
    st1.time < 2 ^ (64 - c.timeShift) ∧
    rest.Sorted (· ≤ ·) ∧
    (∀ s ∈ rest, st1.time ≤ s) ∧
    (∀ s ∈ rest, s < 2 ^ (64 - c.timeShift)) := by
  obtain ⟨hnb, hsb, hsum, hnode, hmax, hmask, hsmask, hts, hns⟩ := newNodeWithConfig_some hc
  cases samples with
  | nil => cases h
  | cons now tail =>
    obtain ⟨htailge, hsorttail⟩ := List.sorted_cons.mp hsort
    have hgenow : st.time ≤ now := hge now (by simp)
    have hbnow : now < 2 ^ (64 - c.timeShift) := hbnd now (by simp)
    simp only [generateM] at h
    by_cases h1 : now = st.time
    · rw [if_pos h1] at h
      by_cases h2 : (st.step + 1) &&& c.stepMask = 0
      · rw [if_pos h2] at h
        rcases hw : genWait st.time tail with _ | ⟨n2, rest2⟩
        · rw [hw] at h; cases h
        · rw [hw] at h
          cases h
          obtain ⟨hlt2, hsuf⟩ := genWait_facts hw
          have hsub : (n2 :: rest).Sublist tail := hsuf.sublist
          have hn2mem : n2 ∈ tail := hsub.subset (by simp)
          have hbn2 : n2 < 2 ^ (64 - c.timeShift) := hbnd n2 (by simp [hn2mem])
          have hsort2 : (n2 :: rest).Sorted (· ≤ ·) := hsorttail.sublist hsub
          obtain ⟨hrge, hrsort⟩ := List.sorted_cons.mp hsort2
          refine ⟨rfl, ?_, Nat.zero_le _, hbn2, hrsort, hrge, ?_⟩
          · exact pack_mono hc htime hbn2 hstep (Nat.zero_le _) (Or.inl hlt2)
          · intro s hs
            exact hbnd s (by simp [hsub.subset (List.mem_cons_of_mem n2 hs)])
      · rw [if_neg h2] at h
        cases h
        have hsval : (st.step + 1) &&& c.stepMask = st.step + 1 ∧ st.step + 1 ≤ c.stepMask := by
          rw [hsmask, Nat.and_pow_two_sub_one_eq_mod] at h2 ⊢
          have hp : (0 : Nat) < 2 ^ cfg.stepBits := Nat.two_pow_pos _
          by_cases htop : st.step = c.stepMask
          · exfalso
            apply h2
            rw [htop, hsmask]
            have : 2 ^ cfg.stepBits - 1 + 1 = 2 ^ cfg.stepBits := by omega
            rw [this, Nat.mod_self]
          · have hlt : st.step + 1 < 2 ^ cfg.stepBits := by
              rw [hsmask] at hstep htop
              omega
            rw [Nat.mod_eq_of_lt hlt]
            exact ⟨rfl, by omega⟩
        refine ⟨by rw [hsval.1], ?_, by rw [hsval.1]; exact hsval.2, hbnow, hsorttail, ?_, ?_⟩
        · rw [hsval.1]
          exact pack_mono hc htime hbnow hstep hsval.2 (Or.inr ⟨h1.symm, by omega⟩)
        · intro s hs
          exact h1 ▸ htailge s hs
        · intro s hs
          exact hbnd s (by simp [hs])
    · rw [if_neg h1] at h
      cases h
      refine ⟨rfl, ?_, Nat.zero_le _, hbnow, hsorttail, htailge, ?_⟩
      · exact pack_mono hc htime hbnow hstep (Nat.zero_le _) (Or.inl (by omega))
      · intro s hs
        exact hbnd s (by simp [hs])

/-- A run of `Generate` calls issues a non-decreasing identifier chain
when the observed clock samples are sorted and bounded. -/
theorem genRun_chain {cfg : Config} {c : NodeC} (hc : newNodeWithConfig cfg = some c) :
    ∀ (k : Nat) (samples : List Nat) (st st2 : GenSt) (ids rest : List Nat),
      st.step ≤ c.stepMask → st.time < 2 ^ (64 - c.timeShift) →
      samples.Sorted (· ≤ ·) → (∀ s ∈ samples, st.time ≤ s) →
      (∀ s ∈ samples, s < 2 ^ (64 - c.timeShift)) →
      genRun c st k samples = some (st2, ids, rest) →
      List.Chain' (· ≤ ·) (pack c st.time st.step :: ids) := by
  intro k
  induction k with
  | zero =>
    intro samples st st2 ids rest _ _ _ _ _ h
    cases h
    simp
  | succ k ih =>
    intro samples st st2 ids rest hstep htime hsort hge hbnd h
    simp only [genRun] at h
    split at h
    · cases h
    · rename_i st1 id rest1 hg
      split at h
      · cases h
      · rename_i st2x idsx rest2x hr
        cases h
        obtain ⟨hid, hle, hstep1, htime1, hsort1, hge1, hbnd1⟩ :=
          generateM_step hc hstep htime hsort hge hbnd hg
        have hchain := ih rest1 st1 st2 idsx rest hstep1 htime1 hsort1 hge1 hbnd1 hr
        rw [← hid] at hchain
        exact List.chain'_cons.mpr ⟨hle, hchain⟩

/-- Timestamp-field extraction inverts packing when the timestamp fits. -/
theorem pack_shiftRight_time {cfg : Config} {c : NodeC} (hc : newNodeWithConfig cfg = some c)
    {now step : Nat} (hnow : now < 2 ^ (64 - c.timeShift)) (hstep : step ≤ c.stepMask) :
    (pack c now step) >>> c.timeShift = now := by
  have hfield := nodeField_lt hc hstep
  rw [pack_eq_add hc hnow hstep, Nat.shiftRight_eq_div_pow]
  rw [show now * 2 ^ c.timeShift + c.node * 2 ^ c.nodeShift + step =
      2 ^ c.timeShift * now + (c.node * 2 ^ c.nodeShift + step) by ring]
  rw [Nat.mul_add_div (Nat.two_pow_pos _), Nat.div_eq_of_lt hfield, Nat.add_zero]

/-- The successful outcome of `GenerateBatch`: exactly `count` identifiers
sharing one timestamp and one node field, with consecutive step values. -/
theorem generateBatchM_ids {cfg : Config} {c : NodeC} (hc : newNodeWithConfig cfg = some c)
    {st : GenSt} {count : Int} {samples : List Nat} {st1 : GenSt} {ids rest : List Nat}
    (hbnd : ∀ s ∈ samples, s < 2 ^ (64 - c.timeShift))
    (h : generateBatchM c st count samples = .ok (some (st1, ids, rest))) :
    ids.length = count.toNat ∧
    ∃ T s0, s0 + count.toNat ≤ c.stepMask + 1 ∧ T < 2 ^ (64 - c.timeShift) ∧
      ids = (List.range count.toNat).map (fun i => pack c T (s0 + i)) ∧
      (∀ i, i < count.toNat → idStep c (pack c T (s0 + i)) = s0 + i) ∧
      (∀ i, i < count.toNat → idNodeID c (pack c T (s0 + i)) = c.node) ∧
      (∀ i, i < count.toNat → (pack c T (s0 + i)) >>> c.timeShift = T) := by
  unfold generateBatchM at h
  by_cases h1 : count ≤ 0
  · rw [if_pos h1] at h; cases h
  rw [if_neg h1] at h
  by_cases h2 : (c.stepMask : Int) < count
  · rw [if_pos h2] at h; cases h
  rw [if_neg h2] at h
  have hcnt : count.toNat ≤ c.stepMask := by omega
  split at h
  case _ => cases h
  case _ now tail =>
    have hbnow : now < 2 ^ (64 - c.timeShift) := hbnd now (by simp)
    have hfinish : ∀ (T s0 : Nat), T < 2 ^ (64 - c.timeShift) →
        s0 + count.toNat ≤ c.stepMask + 1 →
        ((List.range count.toNat).map (fun i => pack c T (s0 + i))).length = count.toNat ∧
        ∃ T2 s2, s2 + count.toNat ≤ c.stepMask + 1 ∧ T2 < 2 ^ (64 - c.timeShift) ∧
          (List.range count.toNat).map (fun i => pack c T (s0 + i)) =
            (List.range count.toNat).map (fun i => pack c T2 (s2 + i)) ∧
          (∀ i, i < count.toNat → idStep c (pack c T2 (s2 + i)) = s2 + i) ∧
          (∀ i, i < count.toNat → idNodeID c (pack c T2 (s2 + i)) = c.node) ∧
          (∀ i, i < count.toNat → (pack c T2 (s2 + i)) >>> c.timeShift = T2) := by
      intro T s0 hT hs0
      refine ⟨by simp, T, s0, hs0, hT, rfl, ?_, ?_, ?_⟩
      · intro i hi
        exact idStep_pack hc (by omega)
      · intro i hi
        exact idNodeID_pack hc (by omega)
      · intro i hi
        exact pack_shiftRight_time hc hT (by omega)
    by_cases hnow : now = st.time
    · rw [if_pos hnow] at h
      by_cases hov : (c.stepMask : Int) < (st.step : Int) + count
      · rw [if_pos hov] at h
        rcases hw : genWait st.time tail with _ | ⟨n2, rest2⟩
        · rw [hw] at h; cases h
        · rw [hw] at h
          cases h
          obtain ⟨hlt2, hsuf⟩ := genWait_facts hw
          have hn2mem : n2 ∈ tail := hsuf.sublist.subset (by simp)
          have hbn2 : n2 < 2 ^ (64 - c.timeShift) := hbnd n2 (by simp [hn2mem])
          simpa using hfinish n2 0 hbn2 (by omega)
      · rw [if_neg hov] at h
        cases h
        exact hfinish now st.step hbnow (by omega)
    · rw [if_neg hnow] at h
      cases h
      simpa using hfinish now 0 hbnow (by omega)

/-- Valid batch counts never reach the error paths. -/
theorem generateBatchM_no_error {c : NodeC} {st : GenSt} {count : Int}
    {samples : List Nat} (h1 : ¬count ≤ 0) (h2 : ¬(c.stepMask : Int) < count) :
    ∃ r, generateBatchM c st count samples = .ok r := by
  unfold generateBatchM
  rw [if_neg h1, if_neg h2]
  cases samples with
  | nil => exact ⟨none, rfl⟩
  | cons now tail =>
    show ∃ r, (if now = st.time then _ else _) = Except.ok r
    by_cases hnow : now = st.time
    · rw [if_pos hnow]
      by_cases hov : (c.stepMask : Int) < (st.step : Int) + count
      · rw [if_pos hov]
        rcases hw : genWait st.time tail with _ | ⟨n2, rest2⟩
        · exact ⟨none, rfl⟩
        · exact ⟨_, rfl⟩
      · rw [if_neg hov]
        exact ⟨_, rfl⟩
    · rw [if_neg hnow]
      exact ⟨_, rfl⟩

/-! ## Default configuration and a concrete generator -/

/-- `DefaultEpoch`. -/
def DefaultEpoch : Int := 1731430800000

/-- The configuration built by `NewNode(1)`: default epoch, 10 node bits,
12 step bits. -/
def defaultConfigNode1 : Config :=
  { epoch := DefaultEpoch, nodeBits := 10, stepBits := 12, node := 1 }

/-- The constants `NewNode(1)` derives. -/
def cDefault : NodeC :=
  { node := 1, nodeMax := 1023, nodeMask := 1023 <<< 12, stepMask := 4095
    timeShift := 22, nodeShift := 12 }

theorem newNodeWithConfig_default : newNodeWithConfig defaultConfigNode1 = some cDefault := by
  rfl

/-! ## Claims -/

/-- C1, counterexample: the encode/decode round trip fails for negative
identifiers under base32 (and base58): `(-1).Base32()` is the empty
string because the digit loop never runs for a negative value, and the
empty string parses back to 0, not -1. -/
theorem mkey_c1_counterexample :
    idBase32 (-1) = [] ∧ parseBase32 (idBase32 (-1)) = some 0 ∧
    ¬parseBase32 (idBase32 (-1)) = some (-1) := by
  refine ⟨rfl, rfl, ?_⟩
  intro h
  rw [show parseBase32 (idBase32 (-1)) = some 0 from rfl] at h
  cases h

/-- C1, amended: for every signed 64-bit identifier `x`, the base64,
decimal and binary encodings parse back to `x`; the base32 and base58
encodings parse back to `x` for every non-negative `x` (negative values
encode to the empty string and parse back to 0). -/
theorem mkey_c1 {x : Int} (h1 : -(2 ^ 63) ≤ x) (h2 : x < 2 ^ 63) :
    (0 ≤ x → parseBase32 (idBase32 x) = some x ∧ parseBase58 (idBase58 x) = some x) ∧
    parseBase64 (idBase64 x) = some x ∧
    parseIntGo 10 (idString x) = some x ∧
    parseIntGo 2 (idBase2 x) = some x := by
  refine ⟨fun h0 => ⟨parseBase32_idBase32 h0 h2, parseBase58_idBase58 h0 h2⟩,
    parseBase64_idBase64 h1 h2, ?_, ?_⟩
  · unfold idString
    exact parseIntGo_formatIntGo (by norm_num) (by norm_num) h1 h2
  · unfold idBase2
    exact parseIntGo_formatIntGo (by norm_num) (by norm_num) h1 h2

/-- C1, witness: concrete round trips through the amended theorem. -/
theorem mkey_c1_witness :
    parseBase32 (idBase32 5) = some 5 ∧ parseBase58 (idBase58 5) = some 5 ∧
    parseBase64 (idBase64 (-3)) = some (-3) ∧
    parseIntGo 10 (idString (-3)) = some (-3) :=
  ⟨((mkey_c1 (by norm_num) (by norm_num)).1 (by norm_num)).1,
   ((mkey_c1 (by norm_num) (by norm_num)).1 (by norm_num)).2,
   (mkey_c1 (by norm_num) (by norm_num)).2.1,
   (mkey_c1 (by norm_num) (by norm_num)).2.2.1⟩

/-- C2, evaluation at the failing input: from a fresh default-config
node-1 generator (lastTime = 0, lastStep = 0) with the clock reading 0 ms
at both calls, `Generate()` issues the identifier 4097 (step 1) and an
immediately following `GenerateBatch(1)` re-issues the identical
identifier 4097, because the batch emits starting at the stored step
value while `Generate` stores the step it last issued. -/
theorem mkey_c2_bug :
    generateM cDefault ⟨0, 0⟩ [0] = some (⟨0, 1⟩, 4097, []) ∧
    generateBatchM cDefault ⟨0, 1⟩ 1 [0] = .ok (some (⟨0, 2⟩, [4097], [])) :=
  ⟨rfl, rfl⟩

/-- C3, counterexample: with a clock that steps backward between two
`Generate()` calls (samples 5 ms then 3 ms), the second identifier is
smaller than the first, so outputs are not non-decreasing for every
sample sequence. -/
theorem mkey_c3_counterexample :
    genRun cDefault ⟨0, 0⟩ 2 [5, 3] =
      some (⟨3, 0⟩, [20975616, 12587008], []) ∧ (12587008 : Nat) < 20975616 :=
  ⟨rfl, by norm_num⟩

/-- C3, amended: for a single validly-constructed generator, identifiers
returned by successive `Generate()` calls in call order are non-decreasing
as unsigned 64-bit magnitudes, provided the observed clock samples are
non-decreasing (no backward step) and fit the timestamp field. -/
theorem mkey_c3 {cfg : Config} {c : NodeC} (hc : newNodeWithConfig cfg = some c)
    {k : Nat} {samples : List Nat} {st2 : GenSt} {ids rest : List Nat}
    (hsort : samples.Sorted (· ≤ ·))
    (hbnd : ∀ s ∈ samples, s < 2 ^ (64 - c.timeShift))
    (h : genRun c ⟨0, 0⟩ k samples = some (st2, ids, rest)) :
    List.Chain' (· ≤ ·) ids :=
  (genRun_chain hc k samples ⟨0, 0⟩ st2 ids rest (Nat.zero_le _) (Nat.two_pow_pos _)
    hsort (fun _ _ => Nat.zero_le _) hbnd h).tail

/-- C3, witness: a concrete sorted run (two calls in one millisecond and
one in the next) yields a non-decreasing identifier sequence. -/
theorem mkey_c3_witness : List.Chain' (· ≤ ·) ([4097, 4098, 4198400] : List Nat) :=
  @mkey_c3 defaultConfigNode1 cDefault newNodeWithConfig_default 3 [0, 0, 1]
    ⟨1, 0⟩ [4097, 4098, 4198400] [] (by decide) (by decide) rfl

/-- C4: `Generate()` follows exactly the claimed state transition: same
millisecond increments the masked step and waits out a wrap until the
clock strictly advances, a differing millisecond (clock regression
included) resets the step to 0, `lastTime` becomes the sample used, and
the identifier is `(now << timeShift) | (node << nodeShift) | step`. -/
theorem mkey_c4 (c : NodeC) (st : GenSt) (samples : List Nat) :
    generateM c st samples = generateSpec c st samples :=
  generateM_eq_generateSpec c st samples

/-- C4, witness: the two transition functions agree on a concrete state
and sample stream. -/
theorem mkey_c4_witness :
    generateM cDefault ⟨0, 4095⟩ [0, 0, 3] = generateSpec cDefault ⟨0, 4095⟩ [0, 0, 3] :=
  mkey_c4 cDefault ⟨0, 4095⟩ [0, 0, 3]

/-- C5: for `1 ≤ k ≤ stepMask`, a successful `GenerateBatch(k)` returns
exactly `k` identifiers, all sharing one timestamp field and one node
field, with step values forming the consecutive run
`s0, s0+1, …, s0+k-1` inside `[0, stepMask]`; a batch never spans two
milliseconds (all identifiers carry the single sample `T`). -/
theorem mkey_c5 {cfg : Config} {c : NodeC} (hc : newNodeWithConfig cfg = some c)
    {st : GenSt} {count : Int} {samples : List Nat} {st1 : GenSt} {ids rest : List Nat}
    (_hk1 : 1 ≤ count) (_hk2 : count ≤ (c.stepMask : Int))
    (hbnd : ∀ s ∈ samples, s < 2 ^ (64 - c.timeShift))
    (h : generateBatchM c st count samples = .ok (some (st1, ids, rest))) :
    ids.length = count.toNat ∧
    ∃ T s0, s0 + count.toNat ≤ c.stepMask + 1 ∧ T < 2 ^ (64 - c.timeShift) ∧
      ids = (List.range count.toNat).map (fun i => pack c T (s0 + i)) ∧
      (∀ i, i < count.toNat → idStep c (pack c T (s0 + i)) = s0 + i) ∧
      (∀ i, i < count.toNat → idNodeID c (pack c T (s0 + i)) = c.node) ∧
      (∀ i, i < count.toNat → (pack c T (s0 + i)) >>> c.timeShift = T) :=
  generateBatchM_ids hc hbnd h

/-- C5, witness: a concrete batch of two identifiers in a fresh
millisecond has the claimed length. -/
theorem mkey_c5_witness : ([29364224, 29364225] : List Nat).length = (2 : Int).toNat :=
  (@mkey_c5 defaultConfigNode1 cDefault newNodeWithConfig_default ⟨0, 0⟩ 2 [7]
    ⟨7, 2⟩ [29364224, 29364225] [] (by norm_num) (by norm_num [cDefault]) (by decide) rfl).1

/-- C6: `GenerateBatch(count)` fails with the argument error exactly when
`count ≤ 0` or `count > stepMask`; for `count` in `[1, stepMask]` it never
fails (the checks run before any state or clock access, and the embedding
returns no successor state on the error path). -/
theorem mkey_c6 (c : NodeC) (st : GenSt) (count : Int) (samples : List Nat) :
    (∃ e, generateBatchM c st count samples = .error e) ↔
      (count ≤ 0 ∨ (c.stepMask : Int) < count) := by
  constructor
  · rintro ⟨e, he⟩
    by_contra hno
    push_neg at hno
    obtain ⟨r, hr⟩ := @generateBatchM_no_error c st count samples (by omega) (by omega)
    rw [hr] at he
    cases he
  · intro hbad
    unfold generateBatchM
    by_cases h1 : count ≤ 0
    · rw [if_pos h1]
      exact ⟨_, rfl⟩
    · rw [if_neg h1]
      have hlt : (c.stepMask : Int) < count := by
        rcases hbad with h | h
        · omega
        · exact h
      rw [if_pos hlt]
      exact ⟨_, rfl⟩

/-- C6, witness: `GenerateBatch(0)` fails, `GenerateBatch(4096)` fails on
the default 12-bit step mask, and `GenerateBatch(1)` does not fail. -/
theorem mkey_c6_witness :
    (∃ e, generateBatchM cDefault ⟨0, 0⟩ 0 [] = .error e) ∧
    (∃ e, generateBatchM cDefault ⟨0, 0⟩ 4096 [] = .error e) ∧
    ¬∃ e, generateBatchM cDefault ⟨0, 0⟩ 1 [0] = .error e :=
  ⟨(mkey_c6 cDefault ⟨0, 0⟩ 0 []).mpr (by norm_num),
   (mkey_c6 cDefault ⟨0, 0⟩ 4096 []).mpr (by norm_num [cDefault]),
   fun h => by
     have := (mkey_c6 cDefault ⟨0, 0⟩ 1 [0]).mp h
     norm_num [cDefault] at this⟩

/-- C7: generator construction fails exactly when `nodeBits > 16`,
`stepBits > 16`, `nodeBits + stepBits > 22`, or the node number lies
outside `[0, 2^nodeBits - 1]`; on success the derived constants are
exactly the claimed ones. -/
theorem mkey_c7 (cfg : Config) :
    (newNodeWithConfig cfg = none ↔
      (16 < cfg.nodeBits ∨ 16 < cfg.stepBits ∨ 22 < cfg.nodeBits + cfg.stepBits ∨
        cfg.node < 0 ∨ ((2 ^ cfg.nodeBits - 1 : Nat) : Int) < cfg.node)) ∧
    (∀ c, newNodeWithConfig cfg = some c →
      c.nodeMax = 2 ^ cfg.nodeBits - 1 ∧ c.nodeMask = c.nodeMax <<< cfg.stepBits ∧
      c.stepMask = 2 ^ cfg.stepBits - 1 ∧ c.timeShift = cfg.nodeBits + cfg.stepBits ∧
      c.nodeShift = cfg.stepBits) := by
  constructor
  · unfold newNodeWithConfig
    by_cases h1 : cfg.nodeBits > 16
    · simp [h1]
    rw [if_neg h1]
    by_cases h2 : cfg.stepBits > 16
    · simp [h1, h2]
    rw [if_neg h2]
    by_cases h3 : cfg.nodeBits + cfg.stepBits > 22
    · simp [h1, h2, h3]
    rw [if_neg h3]
    by_cases h4 : cfg.node < 0 ∨ ((2 ^ cfg.nodeBits - 1 : Nat) : Int) < cfg.node
    · rw [if_pos h4]
      constructor
      · intro _
        exact Or.inr (Or.inr (Or.inr h4))
      · intro _
        rfl
    · rw [if_neg h4]
      constructor
      · intro hsome
        cases hsome
      · intro hdisj
        rcases hdisj with h | h | h | h | h
        · omega
        · omega
        · omega
        · exact absurd (Or.inl h) h4
        · exact absurd (Or.inr h) h4
  · intro c hc
    obtain ⟨_, _, _, _, hmax, hmask, hsmask, hts, hns⟩ := newNodeWithConfig_some hc
    exact ⟨hmax, by rw [hmask, hmax], hsmask, hts, hns⟩

/-- C7, witness: an over-wide node-bit width is rejected, and the default
configuration derives the expected constants. -/
theorem mkey_c7_witness :
    newNodeWithConfig ⟨1731430800000, 17, 12, 0⟩ = none ∧
    (cDefault.nodeMax = 2 ^ 10 - 1 ∧ cDefault.nodeMask = cDefault.nodeMax <<< 12 ∧
      cDefault.stepMask = 2 ^ 12 - 1 ∧ cDefault.timeShift = 10 + 12 ∧
      cDefault.nodeShift = 12) :=
  ⟨(mkey_c7 ⟨1731430800000, 17, 12, 0⟩).1.mpr (by norm_num),
   (mkey_c7 defaultConfigNode1).2 cDefault newNodeWithConfig_default⟩

/-- C8: for a validly constructed generator, `NodeID` is the pure
projection `(id & nodeMask) >> nodeShift` and `Step` is `id & stepMask`;
on every identifier of the form `(t << timeShift) | (node << nodeShift) |
step` with an in-range step they return the configured node and the step,
the step lying in `[0, stepMask]`. -/
theorem mkey_c8 {cfg : Config} {c : NodeC} (hc : newNodeWithConfig cfg = some c) :
    (∀ f, idNodeID c f = (f &&& c.nodeMask) >>> c.nodeShift ∧
      idStep c f = f &&& c.stepMask) ∧
    ∀ t step, step ≤ c.stepMask →
      idNodeID c (pack c t step) = c.node ∧ idStep c (pack c t step) = step ∧
      idStep c (pack c t step) ≤ c.stepMask := by
  refine ⟨fun f => ⟨rfl, rfl⟩, fun t step hs =>
    ⟨idNodeID_pack hc hs, idStep_pack hc hs, ?_⟩⟩
  rw [idStep_pack hc hs]
  exact hs

/-- C8, witness: extraction on a concretely packed identifier. -/
theorem mkey_c8_witness :
    idNodeID cDefault (pack cDefault 5 7) = cDefault.node ∧
    idStep cDefault (pack cDefault 5 7) = 7 ∧
    idStep cDefault (pack cDefault 5 7) ≤ cDefault.stepMask :=
  (mkey_c8 newNodeWithConfig_default).2 5 7 (by norm_num [cDefault])

/-- C9: `ParseBase32`/`ParseBase58` fail (returning no partial result) on
every input containing a byte outside their alphabet, and `ParseBase64`
fails exactly when the underlying unpadded URL-safe base64 decoder
fails. -/
theorem mkey_c9 :
    (∀ s c, c ∈ s → c ∉ encodeBase32Map → parseBase32 s = none) ∧
    (∀ s c, c ∈ s → c ∉ encodeBase58Map → parseBase58 s = none) ∧
    (∀ s, parseBase64 s = none ↔ b64decode s = none) := by
  refine ⟨?_, ?_, ?_⟩
  · intro s c hc hnot
    exact parseRadixGo_none_of_mem hc (decodeMapFn_of_not_mem hnot) 0
  · intro s c hc hnot
    exact parseRadixGo_none_of_mem hc (decodeMapFn_of_not_mem hnot) 0
  · intro s
    unfold parseBase64
    rcases h : b64decode s with _ | d
    · simp
    · simp

/-- C9, witness: a `!` byte is rejected by base32 and base58, and a
lone-character base64 input surfaces the decoder failure. -/
theorem mkey_c9_witness :
    parseBase32 [33] = none ∧ parseBase58 [33] = none ∧ parseBase64 [65] = none :=
  ⟨mkey_c9.1 [33] 33 (by decide) (by decide),
   mkey_c9.2.1 [33] 33 (by decide) (by decide),
   (mkey_c9.2.2 [65]).mpr (by decide)⟩

/-- C10: every negative identifier encodes to the empty string under
base32 and base58 (the digit loops, which always terminate, never run),
the empty string parses to identifier 0 without error, and every
non-negative identifier encodes to a non-empty string. -/
theorem mkey_c10 :
    (∀ f : Int, f < 0 → idBase32 f = [] ∧ idBase58 f = []) ∧
    parseBase32 [] = some 0 ∧ parseBase58 [] = some 0 ∧
    (∀ f : Int, 0 ≤ f → idBase32 f ≠ [] ∧ idBase58 f ≠ []) := by
  refine ⟨?_, rfl, rfl, ?_⟩
  · intro f hf
    have hne : ¬f = 0 := by omega
    have ht : f.toNat = 0 := by omega
    unfold idBase32 idBase58
    rw [if_neg hne, if_neg hne, ht, natDigitsRev_zero, natDigitsRev_zero]
    simp
  · intro f hf
    by_cases h0 : f = 0
    · subst h0
      exact ⟨by decide, by decide⟩
    · have ht : f.toNat ≠ 0 := by omega
      unfold idBase32 idBase58
      rw [if_neg h0, if_neg h0, natDigitsRev_pos (by norm_num) ht,
        natDigitsRev_pos (by norm_num) ht]
      simp

/-- C10, witness: concrete negative and non-negative encodes. -/
theorem mkey_c10_witness :
    (idBase32 (-7) = [] ∧ idBase58 (-7) = []) ∧
    (idBase32 0 ≠ [] ∧ idBase58 0 ≠ []) :=
  ⟨mkey_c10.1 (-7) (by norm_num), mkey_c10.2.2.2 0 (by norm_num)⟩
